import Mathlib

/-!
Verification of the boolean query engine of the Whales-Data catalog
(src/python-version/root.py, class TagDatabase).

Strings are modelled as `List Char`.  Python's `str.strip`, `str.split`,
`str.lower`, substring test (`in`), `str.split(sep, 1)` and the
word-boundary regular expression `(?<!\w)OP(?!\w)` are embedded as
executable functions on `List Char`.  Python sets of object identifiers
are modelled as `Finset (List Char)`; raising an exception is modelled
as `Option.none`.  The recursive string-splitting parser
`parse_boolean_query` is defined through a fuel parameter (the fuel
`length + 1` always suffices, see `parseF_congr` / `parse_eq` below),
which keeps every definition computable by kernel reduction.

Remarks on fidelity: Python's `\w`, `str.lower` and `str.strip` are
Unicode aware; the model uses their ASCII behaviour (alphanumeric or
underscore, `Char.toLower`, the six ASCII whitespace characters), which
is faithful on all ASCII data.  Python's `dict` iteration order is
insertion order, modelled by association lists; `set` iteration order is
unspecified, so list-producing functions fix the catalog order.
-/

/-- whitespace characters stripped by Python's `str.strip()` (ASCII part). -/
def pySpace (c : Char) : Bool :=
  c == ' ' || c == '\t' || c == '\n' || c == '\r' || c == '\x0b' || c == '\x0c'

/-- model of Python `s.strip()`. -/
def pyStrip (s : List Char) : List Char :=
  ((s.dropWhile pySpace).reverse.dropWhile pySpace).reverse

/-- model of Python `s.lower()` (ASCII). -/
def lowerL (s : List Char) : List Char := s.map Char.toLower

/-- model of the regex class `\w` (ASCII): letters, digits, underscore. -/
def isWordChar (c : Char) : Bool := c.isAlphanum || c == '_'

/-- worker for `pySplitWs`; `acc` holds the current word reversed. -/
def splitWsGo (acc : List Char) : List Char → List (List Char)
  | [] => if acc.isEmpty then [] else [acc.reverse]
  | c :: rest =>
    if pySpace c then
      if acc.isEmpty then splitWsGo [] rest else acc.reverse :: splitWsGo [] rest
    else splitWsGo (c :: acc) rest

/-- model of Python `s.split()` (split on whitespace runs, no empty parts). -/
def pySplitWs (s : List Char) : List (List Char) := splitWsGo [] s

/-- headMatch p s: does `p` occur as a prefix of `s`? -/
def headMatch : List Char → List Char → Bool
  | [], _ => true
  | _ :: _, [] => false
  | p :: ps, c :: cs => p == c && headMatch ps cs

/-- model of Python `s.split(sep, 1)`: split at the first occurrence of
`sep`, returning the two parts, or `none` when `sep` does not occur. -/
def splitOnce (sep : List Char) : List Char → Option (List Char × List Char)
  | [] => if headMatch sep [] then some ([], []) else none
  | c :: rest =>
    if headMatch sep (c :: rest) then some ([], (c :: rest).drop sep.length)
    else
      match splitOnce sep rest with
      | some (l, r) => some (c :: l, r)
      | none => none

/-- model of Python `sep in s` (substring containment). -/
def hasSub (sep s : List Char) : Bool := (splitOnce sep s).isSome

/-- model of `re.split(r'(?<!\w)OP(?!\w)', s, 1)`: split at the first
occurrence of `op` whose neighbouring characters (tracked by `prev` on
the left) are not word characters; `none` when the regex has no match. -/
def splitWordBoundary (op : List Char) : Option Char → List Char → Option (List Char × List Char)
  | _, [] => none
  | prev, c :: rest =>
    if headMatch op (c :: rest)
        && (match prev with | some p => ! isWordChar p | none => true)
        && (match (c :: rest).drop op.length with | [] => true | d :: _ => ! isWordChar d) then
      some ([], (c :: rest).drop op.length)
    else
      match splitWordBoundary op (some c) rest with
      | some (l, r) => some (c :: l, r)
      | none => none

/-- the operator label "OR" (value of `operator.strip()` in the source). -/
def kOR : List Char := 'O' :: 'R' :: []

/-- the operator label "AND". -/
def kAND : List Char := 'A' :: 'N' :: 'D' :: []

/-- the operator label "NOT". -/
def kNOT : List Char := 'N' :: 'O' :: 'T' :: []

/-- the space-delimited operator " OR " of the parser's first pass. -/
def sOR : List Char := ' ' :: 'O' :: 'R' :: ' ' :: []

/-- the space-delimited operator " AND ". -/
def sAND : List Char := ' ' :: 'A' :: 'N' :: 'D' :: ' ' :: []

/-- the space-delimited operator " NOT ". -/
def sNOT : List Char := ' ' :: 'N' :: 'O' :: 'T' :: ' ' :: []

/-- query expression tree produced by `parse_boolean_query`: either a
leaf term (Python `str`) or `{"operator": op, "operands": operands}`. -/
inductive QExpr where
  | leaf (s : List Char)
  | node (op : List Char) (operands : List QExpr)
deriving Repr

/-- test `query.startswith('(') and query.endswith(')')` of the source. -/
def parenWrapped (t : List Char) : Bool :=
  (t.head? == some '(') && (t.getLast? == some ')')

/-- one iteration of the parser's second loop (operators without
surrounding spaces, validated by a word-boundary check): skip when the
spaced form occurs (the `continue`), otherwise split at the first
word-boundary occurrence of `op`. -/
def secondPass (op q : List Char) : Option (List Char × List Char) :=
  if hasSub (' ' :: (op ++ [' '])) q then none
  else if hasSub op q then splitWordBoundary op none q
  else none

/-- body of `TagDatabase.parse_boolean_query` after the initial
`query.strip()`, with the recursive call abstracted as `rec`:
unconditionally strip an outer parenthesis pair, try the space-delimited
operators " OR ", " AND ", " NOT " in that fixed order, then the
word-boundary second pass in the order OR, AND, NOT, and otherwise
return the whole string as a leaf. -/
def parseCore (rec : List Char → QExpr) (t : List Char) : QExpr :=
  if parenWrapped t then rec ((t.drop 1).dropLast)
  else
    match splitOnce sOR t with
    | some (l, r) => QExpr.node kOR [rec l, rec r]
    | none =>
      match splitOnce sAND t with
      | some (l, r) => QExpr.node kAND [rec l, rec r]
      | none =>
        match splitOnce sNOT t with
        | some (l, r) => QExpr.node kNOT [rec l, rec r]
        | none =>
          match secondPass kOR t with
          | some (l, r) => QExpr.node kOR [rec l, rec r]
          | none =>
            match secondPass kAND t with
            | some (l, r) => QExpr.node kAND [rec l, rec r]
            | none =>
              match secondPass kNOT t with
              | some (l, r) => QExpr.node kNOT [rec l, rec r]
              | none => QExpr.leaf t

/-- body of `TagDatabase.parse_boolean_query` for one recursion level:
strip the surrounding whitespace, then apply `parseCore`. -/
def parseStep (rec : List Char → QExpr) (query : List Char) : QExpr :=
  parseCore rec (pyStrip query)

/-- fuelled form of the parser's recursion (the recursion of the source
is on ever shorter strings, so fuel `length + 1` is always enough;
`parseF_congr` below proves fuel irrelevance). -/
def parseF : Nat → List Char → QExpr
  | 0 => fun _ => QExpr.leaf []
  | Nat.succ fuel => fun query => parseStep (parseF fuel) query

/-- model of `TagDatabase.parse_boolean_query`. -/
def parse_boolean_query (query : List Char) : QExpr := parseF (query.length + 1) query

/-- a catalog object (`FileObject` of the source); `id` is the key the
object is stored under in `TagDatabase.objects`. -/
structure FileObject where
  id : List Char
  name : List Char
  description : List Char
  file_type : List Char
  location : List Char
deriving Repr, DecidableEq

/-- a collection (`Collection` of the source); only the fields the query
engine reads. -/
structure Collection where
  name : List Char
  description : List Char
  object_ids : List (List Char)
deriving Repr, DecidableEq

/-- the in-memory state of `TagDatabase`: `objects` models the dict
`id -> FileObject` (insertion order, each object stored under its own
`id`), `tags` the dict `tag -> set of ids`, `collections` the dict of
collections (only the values matter to the engine). -/
structure DB where
  objects : List FileObject
  tags : List (List Char × List (List Char))
  collections : List Collection
deriving Repr

/-- model of `TagDatabase.location_exists`. -/
def location_exists (db : DB) (location : List Char) : Bool :=
  db.objects.any (fun o => o.location == location)

/-- model of `TagDatabase.get_all_object_ids` (`set(self.objects.keys())`). -/
def get_all_object_ids (db : DB) : Finset (List Char) :=
  (db.objects.map (fun o => o.id)).toFinset

/-- model of `TagDatabase.search_by_name`: objects whose lowercased name
contains every whitespace-separated fragment of the lowercased query. -/
def search_by_name (db : DB) (name : List Char) : List FileObject :=
  let search_terms := pySplitWs (lowerL name)
  db.objects.filter (fun o => search_terms.all (fun t => hasSub t (lowerL o.name)))

/-- dict lookup `self.objects[i]` guarded by `i in self.objects`. -/
def lookup_object (db : DB) (i : List Char) : Option FileObject :=
  db.objects.find? (fun o => o.id == i)

/-- tag-name cleaning of `search_by_tag`:
`tag.lstrip('#').strip().replace(' ', '_')`. -/
def cleanTag (tag : List Char) : List Char :=
  (pyStrip (tag.dropWhile (fun c => c == '#'))).map (fun c => if c == ' ' then '_' else c)

/-- model of `TagDatabase.search_by_tag`. -/
def search_by_tag (db : DB) (tag : List Char) : List FileObject :=
  match db.tags.find? (fun p => p.1 == cleanTag tag) with
  | none => []
  | some p => p.2.filterMap (fun i => lookup_object db i)

/-- model of `TagDatabase.search_by_collection`: members of every
collection whose name contains the given name case-insensitively. -/
def search_by_collection (db : DB) (collection_name : List Char) : List FileObject :=
  (db.collections.filter (fun c => hasSub (lowerL collection_name) (lowerL c.name))).flatMap
    (fun c => c.object_ids.filterMap (fun i => lookup_object db i))

/-- model of `TagDatabase.search_exact_name` (case-insensitive full-name
match, returning a set of identifiers). -/
def search_exact_name (db : DB) (name : List Char) : Finset (List Char) :=
  ((db.objects.filter (fun o => lowerL o.name == lowerL name)).map (fun o => o.id)).toFinset

/-- model of `TagDatabase.evaluate_simple_term`. -/
def evaluate_simple_term (db : DB) (term : List Char) : Finset (List Char) :=
  let t := pyStrip term
  if (t.head? == some '\"') && (t.getLast? == some '\"') then
    search_exact_name db ((t.drop 1).dropLast)
  else if t.head? == some '#' then
    ((search_by_tag db (pyStrip (t.drop 1))).map (fun o => o.id)).toFinset
  else if t.head? == some '@' then
    ((search_by_collection db (pyStrip (t.drop 1))).map (fun o => o.id)).toFinset
  else
    ((search_by_name db t).map (fun o => o.id)).toFinset

mutual
/-- model of `TagDatabase.evaluate_boolean_expression`; a raised
`ValueError` is modelled as `none`.  NOT with two operands is set
difference, NOT with one operand is complement against all ids, AND/OR
with at least two operands are intersection/union folds, every other
shape raises. -/
def evaluate_boolean_expression (db : DB) : QExpr → Option (Finset (List Char))
  | QExpr.leaf s => some (evaluate_simple_term db s)
  | QExpr.node op operands =>
    if op = kNOT then
      match operands with
      | [a] =>
        match evaluate_boolean_expression db a with
        | some r => some (get_all_object_ids db \ r)
        | none => none
      | [a, b] =>
        match evaluate_boolean_expression db a, evaluate_boolean_expression db b with
        | some r1, some r2 => some (r1 \ r2)
        | _, _ => none
      | _ => none
    else if op = kAND then
      if operands.length < 2 then none
      else
        match evalOperands db operands with
        | some (r :: rs) => some (rs.foldl (fun u v => u ∩ v) r)
        | _ => none
    else if op = kOR then
      if operands.length < 2 then none
      else
        match evalOperands db operands with
        | some rs => some (rs.foldl (fun u v => u ∪ v) ∅)
        | none => none
    else none

/-- evaluate a list of operands left to right, propagating the first
raised error (models the operand loops of the AND/OR branches). -/
def evalOperands (db : DB) : List QExpr → Option (List (Finset (List Char)))
  | [] => some []
  | e :: es =>
    match evaluate_boolean_expression db e, evalOperands db es with
    | some r, some rs => some (r :: rs)
    | _, _ => none
end

/-- model of `TagDatabase.advanced_search`: empty (stripped) query
returns the whole catalog; otherwise parse and evaluate, mapping the
resulting ids back to objects; the `except` clause (any raise) falls
back to `search_by_name` on the whole original query. -/
def advanced_search (db : DB) (query : List Char) : List FileObject :=
  if (pyStrip query).isEmpty then db.objects
  else
    match evaluate_boolean_expression db (parse_boolean_query query) with
    | some result_ids => db.objects.filter (fun o => decide (o.id ∈ result_ids))
    | none => search_by_name db query

/-- dict store `self.objects[obj.id] = obj`: replace in place when the
key exists, append otherwise. -/
def dict_set_object (l : List FileObject) (obj : FileObject) : List FileObject :=
  if l.any (fun o => o.id == obj.id) then
    l.map (fun o => if o.id == obj.id then obj else o)
  else l ++ [obj]

/-- model of `TagDatabase.add_object` (without the JSON save): refuse
duplicated locations, otherwise store and return the new id. -/
def add_object (db : DB) (obj : FileObject) : DB × Option (List Char) :=
  if location_exists db obj.location then (db, none)
  else ({ db with objects := dict_set_object db.objects obj }, some obj.id)

/-- model of `TagDatabase.update_object` (without the JSON save): fail on
unknown id, fail when the location changes to one that already exists,
otherwise update the four fields in place. -/
def update_object (db : DB) (obj_id name description file_type location : List Char) :
    DB × Bool :=
  match lookup_object db obj_id with
  | none => (db, false)
  | some cur =>
    if (location != cur.location) && location_exists db location then (db, false)
    else
      ({ db with objects := db.objects.map (fun o =>
          if o.id == obj_id then
            { o with name := name, description := description,
                     file_type := file_type, location := location }
          else o) }, true)

/-- the location-uniqueness invariant: no two catalog objects share a
location. -/
def locUnique (l : List FileObject) : Prop :=
  l.Pairwise (fun a b => a.location ≠ b.location)

/-- well-formedness of parser output: a leaf, or a node whose operator
is one of OR, AND, NOT with exactly two recursively well-formed
operands. -/
inductive WFExpr : QExpr → Prop where
  | leaf : ∀ s, WFExpr (QExpr.leaf s)
  | node : ∀ op a b, op = kOR ∨ op = kAND ∨ op = kNOT →
      WFExpr a → WFExpr b → WFExpr (QExpr.node op [a, b])

/-- Modelled from the claim's words (claim C1): split the query at the
first occurrence of " OR " if " OR " occurs anywhere, otherwise at the
first " AND ", otherwise at the first " NOT ".  Used only to compare the
claimed splitting rule with the source parser. -/
def claimFirstSplit (q : List Char) : Option (List Char × List Char × List Char) :=
  match splitOnce sOR q with
  | some (l, r) => some (kOR, l, r)
  | none =>
    match splitOnce sAND q with
    | some (l, r) => some (kAND, l, r)
    | none =>
      match splitOnce sNOT q with
      | some (l, r) => some (kNOT, l, r)
      | none => none

/-- a sample catalog object named apple. -/
def objApple : FileObject :=
  { id := [ '1'], name := 'a' :: 'p' :: 'p' :: 'l' :: 'e' :: [],
    description := [], file_type := 'i' :: 'm' :: 'g' :: [],
    location := '/' :: 'a' :: [] }

/-- a sample catalog object named banana. -/
def objBanana : FileObject :=
  { id := [ '2'], name := 'b' :: 'a' :: 'n' :: 'a' :: 'n' :: 'a' :: [],
    description := [], file_type := 'i' :: 'm' :: 'g' :: [],
    location := '/' :: 'b' :: [] }

/-- a small concrete catalog with the two sample objects. -/
def db1 : DB := { objects := [objApple, objBanana], tags := [], collections := [] }


/-! ### Helper lemmas: lengths, fuel irrelevance, parser recurrence -/

lemma headMatch_le {p s : List Char} (h : headMatch p s = true) : p.length ≤ s.length := by
  induction p generalizing s with
  | nil => simp
  | cons a ps ih =>
    cases s with
    | nil => simp [headMatch] at h
    | cons c cs =>
      simp only [headMatch, Bool.and_eq_true, beq_iff_eq] at h
      simpa using ih h.2

lemma splitOnce_length {sep s l r : List Char} (h : splitOnce sep s = some (l, r)) :
    l.length + (sep.length + r.length) = s.length := by
  induction s generalizing l r with
  | nil =>
    cases sep with
    | nil =>
      simp only [splitOnce, headMatch, if_true, Option.some.injEq, Prod.mk.injEq] at h
      obtain ⟨h1, h2⟩ := h
      simp [← h1, ← h2]
    | cons a t => simp [splitOnce, headMatch] at h
  | cons c rest ih =>
    unfold splitOnce at h
    split at h
    · next hm =>
      have hle := headMatch_le hm
      simp only [Option.some.injEq, Prod.mk.injEq] at h
      obtain ⟨h1, h2⟩ := h
      simp only [← h1, ← h2, List.length_nil, List.length_drop, List.length_cons]
      simp only [List.length_cons] at hle
      omega
    · cases hs : splitOnce sep rest with
      | none => rw [hs] at h; simp at h
      | some p =>
        obtain ⟨l', r'⟩ := p
        rw [hs] at h
        simp only [Option.some.injEq, Prod.mk.injEq] at h
        obtain ⟨h1, h2⟩ := h
        have hb := ih hs
        simp only [← h1, ← h2, List.length_cons]
        omega

lemma splitWordBoundary_length {op s l r : List Char} {prev : Option Char}
    (h : splitWordBoundary op prev s = some (l, r)) :
    l.length + (op.length + r.length) = s.length := by
  induction s generalizing prev l r with
  | nil => simp [splitWordBoundary] at h
  | cons c rest ih =>
    unfold splitWordBoundary at h
    split at h
    · next hc =>
      simp only [Bool.and_eq_true] at hc
      have hle := headMatch_le hc.1.1
      simp only [Option.some.injEq, Prod.mk.injEq] at h
      obtain ⟨h1, h2⟩ := h
      simp only [← h1, ← h2, List.length_nil, List.length_drop, List.length_cons]
      simp only [List.length_cons] at hle
      omega
    · cases hs : splitWordBoundary op (some c) rest with
      | none => rw [hs] at h; simp at h
      | some p =>
        obtain ⟨l', r'⟩ := p
        rw [hs] at h
        simp only [Option.some.injEq, Prod.mk.injEq] at h
        obtain ⟨h1, h2⟩ := h
        have hb := ih hs
        simp only [← h1, ← h2, List.length_cons]
        omega

lemma secondPass_some {op q l r : List Char} (h : secondPass op q = some (l, r)) :
    splitWordBoundary op none q = some (l, r) := by
  unfold secondPass at h
  split at h
  · simp at h
  · split at h
    · exact h
    · simp at h

lemma secondPass_length {op q l r : List Char} (h : secondPass op q = some (l, r)) :
    l.length + (op.length + r.length) = q.length :=
  splitWordBoundary_length (secondPass_some h)

lemma pyStrip_length_le (s : List Char) : (pyStrip s).length ≤ s.length := by
  unfold pyStrip
  calc ((s.dropWhile pySpace).reverse.dropWhile pySpace).reverse.length
      = ((s.dropWhile pySpace).reverse.dropWhile pySpace).length := List.length_reverse _
    _ ≤ (s.dropWhile pySpace).reverse.length := (List.dropWhile_sublist _).length_le
    _ = (s.dropWhile pySpace).length := List.length_reverse _
    _ ≤ s.length := (List.dropWhile_sublist _).length_le

lemma parenWrapped_ne_nil {t : List Char} (h : parenWrapped t = true) : t ≠ [] := by
  intro he
  subst he
  simp [parenWrapped] at h

lemma interior_length_lt {t : List Char} (h : t ≠ []) :
    ((t.drop 1).dropLast).length < t.length := by
  have hp : 0 < t.length := List.length_pos.mpr h
  simp only [List.length_dropLast, List.length_drop]
  omega

lemma parseCore_congr {f g : List Char → QExpr} (t : List Char)
    (h : ∀ r : List Char, r.length < t.length → f r = g r) :
    parseCore f t = parseCore g t := by
  unfold parseCore
  by_cases hp : parenWrapped t = true
  · simp only [if_pos hp]
    exact h _ (interior_length_lt (parenWrapped_ne_nil hp))
  · simp only [if_neg hp]
    cases h1 : splitOnce sOR t with
    | some p =>
      obtain ⟨l, r⟩ := p
      have hb := splitOnce_length h1
      dsimp only
      rw [h l (by simp [sOR] at hb; omega), h r (by simp [sOR] at hb; omega)]
    | none =>
    dsimp only
    cases h2 : splitOnce sAND t with
    | some p =>
      obtain ⟨l, r⟩ := p
      have hb := splitOnce_length h2
      dsimp only
      rw [h l (by simp [sAND] at hb; omega), h r (by simp [sAND] at hb; omega)]
    | none =>
    dsimp only
    cases h3 : splitOnce sNOT t with
    | some p =>
      obtain ⟨l, r⟩ := p
      have hb := splitOnce_length h3
      dsimp only
      rw [h l (by simp [sNOT] at hb; omega), h r (by simp [sNOT] at hb; omega)]
    | none =>
    dsimp only
    cases h4 : secondPass kOR t with
    | some p =>
      obtain ⟨l, r⟩ := p
      have hb := secondPass_length h4
      dsimp only
      rw [h l (by simp [kOR] at hb; omega), h r (by simp [kOR] at hb; omega)]
    | none =>
    dsimp only
    cases h5 : secondPass kAND t with
    | some p =>
      obtain ⟨l, r⟩ := p
      have hb := secondPass_length h5
      dsimp only
      rw [h l (by simp [kAND] at hb; omega), h r (by simp [kAND] at hb; omega)]
    | none =>
    dsimp only
    cases h6 : secondPass kNOT t with
    | some p =>
      obtain ⟨l, r⟩ := p
      have hb := secondPass_length h6
      dsimp only
      rw [h l (by simp [kNOT] at hb; omega), h r (by simp [kNOT] at hb; omega)]
    | none => rfl

lemma parseStep_congr {f g : List Char → QExpr} (query : List Char)
    (h : ∀ r : List Char, r.length < query.length → f r = g r) :
    parseStep f query = parseStep g query := by
  unfold parseStep
  exact parseCore_congr _ (fun r hr =>
    h r (lt_of_lt_of_le hr (pyStrip_length_le query)))

lemma parseF_congr : ∀ (f1 f2 : Nat) (q : List Char), q.length < f1 → q.length < f2 →
    parseF f1 q = parseF f2 q := by
  intro f1
  induction f1 with
  | zero => intro f2 q h1 h2; omega
  | succ n ih =>
    intro f2 q h1 h2
    cases f2 with
    | zero => omega
    | succ m =>
      show parseStep (parseF n) q = parseStep (parseF m) q
      apply parseStep_congr
      intro r hr
      exact ih m r (by omega) (by omega)

/-- the recurrence satisfied by `parse_boolean_query`: it is a fixpoint
of `parseStep`, exactly the recursion of the source. -/
lemma parse_eq (q : List Char) : parse_boolean_query q = parseStep parse_boolean_query q := by
  show parseStep (parseF q.length) q = parseStep parse_boolean_query q
  apply parseStep_congr
  intro r hr
  exact parseF_congr q.length (r.length + 1) r hr (by omega)

lemma parseCore_wf (f : List Char → QExpr) (t : List Char) (hf : ∀ r, WFExpr (f r)) :
    WFExpr (parseCore f t) := by
  unfold parseCore
  by_cases hp : parenWrapped t = true
  · rw [if_pos hp]; exact hf _
  · rw [if_neg hp]
    cases splitOnce sOR t with
    | some p => exact WFExpr.node _ _ _ (Or.inl rfl) (hf _) (hf _)
    | none =>
    cases splitOnce sAND t with
    | some p => exact WFExpr.node _ _ _ (Or.inr (Or.inl rfl)) (hf _) (hf _)
    | none =>
    cases splitOnce sNOT t with
    | some p => exact WFExpr.node _ _ _ (Or.inr (Or.inr rfl)) (hf _) (hf _)
    | none =>
    cases secondPass kOR t with
    | some p => exact WFExpr.node _ _ _ (Or.inl rfl) (hf _) (hf _)
    | none =>
    cases secondPass kAND t with
    | some p => exact WFExpr.node _ _ _ (Or.inr (Or.inl rfl)) (hf _) (hf _)
    | none =>
    cases secondPass kNOT t with
    | some p => exact WFExpr.node _ _ _ (Or.inr (Or.inr rfl)) (hf _) (hf _)
    | none => exact WFExpr.leaf _

lemma parseF_wf : ∀ (fuel : Nat) (q : List Char), WFExpr (parseF fuel q) := by
  intro fuel
  induction fuel with
  | zero => intro q; exact WFExpr.leaf []
  | succ n ih => intro q; exact parseCore_wf _ _ ih

/-- every tree produced by the parser is well formed. -/
lemma parse_wf (q : List Char) : WFExpr (parse_boolean_query q) := parseF_wf _ q

lemma eval_leaf (db : DB) (s : List Char) :
    evaluate_boolean_expression db (QExpr.leaf s) = some (evaluate_simple_term db s) := by
  simp [evaluate_boolean_expression]

lemma evalOperands_nil (db : DB) : evalOperands db [] = some [] := rfl

lemma evalOperands_pair (db : DB) {a b : QExpr} {ra rb : Finset (List Char)}
    (ha : evaluate_boolean_expression db a = some ra)
    (hb : evaluate_boolean_expression db b = some rb) :
    evalOperands db [a, b] = some [ra, rb] := by
  show (match evaluate_boolean_expression db a, evalOperands db [b] with
    | some r, some rs => some (r :: rs)
    | _, _ => none) = some [ra, rb]
  rw [ha]
  show (match (some ra : Option (Finset (List Char))),
      (match evaluate_boolean_expression db b, evalOperands db [] with
        | some r, some rs => some (r :: rs)
        | _, _ => none) with
    | some r, some rs => some (r :: rs)
    | _, _ => none) = some [ra, rb]
  rw [hb, evalOperands_nil]

lemma eval_node_not2 (db : DB) {a b : QExpr} {ra rb : Finset (List Char)}
    (ha : evaluate_boolean_expression db a = some ra)
    (hb : evaluate_boolean_expression db b = some rb) :
    evaluate_boolean_expression db (QExpr.node kNOT [a, b]) = some (ra \ rb) := by
  unfold evaluate_boolean_expression
  rw [if_pos rfl]
  dsimp only
  rw [ha, hb]

lemma eval_node_and2 (db : DB) {a b : QExpr} {ra rb : Finset (List Char)}
    (ha : evaluate_boolean_expression db a = some ra)
    (hb : evaluate_boolean_expression db b = some rb) :
    evaluate_boolean_expression db (QExpr.node kAND [a, b]) = some (ra ∩ rb) := by
  unfold evaluate_boolean_expression
  rw [if_neg (by decide), if_pos rfl, if_neg (by simp), evalOperands_pair db ha hb]
  rfl

lemma eval_node_or2 (db : DB) {a b : QExpr} {ra rb : Finset (List Char)}
    (ha : evaluate_boolean_expression db a = some ra)
    (hb : evaluate_boolean_expression db b = some rb) :
    evaluate_boolean_expression db (QExpr.node kOR [a, b]) = some (ra ∪ rb) := by
  unfold evaluate_boolean_expression
  rw [if_neg (by decide), if_neg (by decide), if_pos rfl, if_neg (by simp),
    evalOperands_pair db ha hb]
  show some (∅ ∪ ra ∪ rb) = some (ra ∪ rb)
  rw [Finset.empty_union]

/-- the evaluator never raises on a well-formed tree. -/
lemma eval_wf_some (db : DB) : ∀ {e : QExpr}, WFExpr e →
    ∃ s, evaluate_boolean_expression db e = some s := by
  intro e h
  induction h with
  | leaf s => exact ⟨_, eval_leaf db s⟩
  | node op a b hop ha hb iha ihb =>
    obtain ⟨ra, hra⟩ := iha
    obtain ⟨rb, hrb⟩ := ihb
    rcases hop with h | h | h
    · exact h ▸ ⟨_, eval_node_or2 db hra hrb⟩
    · exact h ▸ ⟨_, eval_node_and2 db hra hrb⟩
    · exact h ▸ ⟨_, eval_node_not2 db hra hrb⟩

lemma parse_nil : parse_boolean_query [] = QExpr.leaf [] := rfl

/-- an empty (stripped-empty) term resolves through `search_by_name ""`
to the set of all identifiers. -/
lemma evaluate_simple_term_of_strip_nil {db : DB} {t : List Char} (h : pyStrip t = []) :
    evaluate_simple_term db t = get_all_object_ids db := by
  unfold evaluate_simple_term
  rw [h]
  simp [search_by_name, pySplitWs, lowerL, splitWsGo, get_all_object_ids,
    List.filter_true]

/-! ### Claim theorems -/

/-- C5: for every catalog index, `advanced_search` applied to an empty or
whitespace-only query string returns every object record in the catalog
(the full catalog, no filtering), not the empty set. -/
theorem C5_empty_query_full_catalog (db : DB) (q : List Char)
    (h : (pyStrip q).isEmpty = true) : advanced_search db q = db.objects := by
  unfold advanced_search
  rw [if_pos h]

theorem C5_witness :
    (pyStrip ( "  ".toList)).isEmpty = true ∧ advanced_search db1 ( "  ".toList) = db1.objects :=
  ⟨by decide, C5_empty_query_full_catalog db1 ( "  ".toList) (by decide)⟩

/-- C4: `advanced_search` never lets an exception escape: for every query
and catalog its result is always one of the three sanctioned outcomes —
the full catalog on a blank query, the id-filtered catalog when parsing
and evaluation succeed, or the plain name-substring search applied to
the entire original query string when evaluation raises (`none`).  In
the model an exception is `Option.none`, and `advanced_search` is a
total function into result lists. -/
theorem C4_no_exception_fallback (db : DB) (q : List Char) :
    ((pyStrip q).isEmpty = true ∧ advanced_search db q = db.objects) ∨
    (∃ ids, evaluate_boolean_expression db (parse_boolean_query q) = some ids ∧
      advanced_search db q = db.objects.filter (fun o => decide (o.id ∈ ids))) ∨
    (evaluate_boolean_expression db (parse_boolean_query q) = none ∧
      advanced_search db q = search_by_name db q) := by
  by_cases h : (pyStrip q).isEmpty = true
  · exact Or.inl ⟨h, by unfold advanced_search; rw [if_pos h]⟩
  · cases he : evaluate_boolean_expression db (parse_boolean_query q) with
    | some ids =>
      refine Or.inr (Or.inl ⟨ids, rfl, ?_⟩)
      unfold advanced_search
      rw [if_neg h, he]
    | none =>
      refine Or.inr (Or.inr ⟨rfl, ?_⟩)
      unfold advanced_search
      rw [if_neg h, he]

/-- C6: `advanced_search` terminates on every query (all functions of
this model are total Lean functions; the parser's recursion is
well-founded on the query length, see `parseF_congr`), and every
identifier in its result is an element of the catalog's identifier
universe `get_all_object_ids`. -/
theorem C6_result_subset_universe (db : DB) (q : List Char) (o : FileObject)
    (ho : o ∈ advanced_search db q) : o.id ∈ get_all_object_ids db := by
  have hmem : o ∈ db.objects := by
    unfold advanced_search at ho
    by_cases h : (pyStrip q).isEmpty = true
    · rw [if_pos h] at ho
      exact ho
    · rw [if_neg h] at ho
      cases he : evaluate_boolean_expression db (parse_boolean_query q) with
      | some ids =>
        rw [he] at ho
        exact (List.mem_filter.mp ho).1
      | none =>
        rw [he] at ho
        unfold search_by_name at ho
        exact (List.mem_filter.mp ho).1
  unfold get_all_object_ids
  rw [List.mem_toFinset]
  exact List.mem_map.mpr ⟨o, hmem, rfl⟩

theorem C6_witness :
    objApple ∈ advanced_search db1 [] ∧ objApple.id ∈ get_all_object_ids db1 :=
  ⟨by decide, C6_result_subset_universe db1 [] objApple (by decide)⟩

/-- C2 counterexample: on the two-object catalog `db1`, the empty leaf
term does NOT evaluate to the empty set (it evaluates to the set of all
identifiers), refuting the claim as stated. -/
theorem C2_counterexample :
    evaluate_simple_term db1 [] = get_all_object_ids db1 ∧
      evaluate_simple_term db1 [] ≠ (∅ : Finset (List Char)) := by
  constructor
  · decide
  · decide

/-- C2 amended: for every catalog index, evaluating an empty (or
whitespace-only) leaf term with `evaluate_simple_term` returns the set
of ALL object identifiers of the catalog (through `search_by_name ""`,
whose fragment list is empty and therefore matches every name), and does
not raise. -/
theorem C2_empty_term_full_universe (db : DB) (t : List Char) (h : pyStrip t = []) :
    evaluate_simple_term db t = get_all_object_ids db :=
  evaluate_simple_term_of_strip_nil h

theorem C2_witness :
    pyStrip (' ' :: []) = [] ∧ evaluate_simple_term db1 (' ' :: []) = get_all_object_ids db1 :=
  ⟨by decide, C2_empty_term_full_universe db1 (' ' :: []) (by decide)⟩

/-- C8: for every query string whose trimmed form starts with a left and
ends with a right parenthesis, `parse_boolean_query` strips the first
and last characters and recurses on the interior, unconditionally and
before any operator search. -/
theorem C8_unconditional_paren_strip (q : List Char)
    (h : parenWrapped (pyStrip q) = true) :
    parse_boolean_query q = parse_boolean_query (((pyStrip q).drop 1).dropLast) := by
  rw [parse_eq q]
  unfold parseStep parseCore
  rw [if_pos h]

theorem C8_witness :
    parenWrapped (pyStrip ( "(a) OR (b)".toList)) = true ∧
      parse_boolean_query ( "(a) OR (b)".toList) =
        parse_boolean_query (((pyStrip ( "(a) OR (b)".toList)).drop 1).dropLast) :=
  ⟨by decide, C8_unconditional_paren_strip ( "(a) OR (b)".toList) (by decide)⟩

/-- C10: every tree returned by the parser is a leaf or a binary node
labelled OR, AND or NOT with exactly two recursively well-formed
operands, and consequently the evaluator's error branches (the
operand-count and unknown-operator `ValueError`s, modelled as `none`)
are unreachable on parser output. -/
theorem C10_parser_shape_eval_total :
    (∀ q, WFExpr (parse_boolean_query q)) ∧
    (∀ (db : DB) (q : List Char),
      ∃ s, evaluate_boolean_expression db (parse_boolean_query q) = some s) :=
  ⟨parse_wf, fun db q => eval_wf_some db (parse_wf q)⟩

/-- C1 counterexample: the query "(a OR b)" contains the space-delimited
operator " OR ", and the claimed rule would split the string itself at
that occurrence into "(a" and "b)"; but the source strips the outer
parentheses first, so `parse_boolean_query` does not produce the node
with the recursively parsed left and right parts of that split. -/
theorem C1_counterexample :
    claimFirstSplit ( "(a OR b)".toList) =
        some (kOR, ( "(a".toList), ( "b)".toList)) ∧
      parse_boolean_query ( "(a OR b)".toList) ≠
        QExpr.node kOR [parse_boolean_query ( "(a".toList),
          parse_boolean_query ( "b)".toList)] := by
  constructor
  · decide
  · intro h
    have h2 : QExpr.node kOR [QExpr.leaf ('a' :: []), QExpr.leaf ('b' :: [])] =
        QExpr.node kOR [QExpr.leaf ('(' :: 'a' :: []), QExpr.leaf ('b' :: ')' :: [])] := h
    simp [kOR] at h2

/-- C1 amended: for every query string whose trimmed form is not wrapped
in an outer parenthesis pair, if the trimmed form contains a
space-delimited operator then `parse_boolean_query` splits the trimmed
form at the first occurrence of " OR " if " OR " occurs anywhere in it,
otherwise at the first " AND ", otherwise at the first " NOT " — the
operator kinds tried in that fixed order regardless of their positions —
and produces a binary node whose two children are the recursively parsed
left and right parts. -/
theorem C1_fixed_order_first_split (q op l r : List Char)
    (hpw : parenWrapped (pyStrip q) = false)
    (h : claimFirstSplit (pyStrip q) = some (op, l, r)) :
    parse_boolean_query q =
      QExpr.node op [parse_boolean_query l, parse_boolean_query r] := by
  rw [parse_eq q]
  unfold parseStep parseCore
  rw [if_neg (by simp [hpw])]
  unfold claimFirstSplit at h
  cases h1 : splitOnce sOR (pyStrip q) with
  | some p =>
    obtain ⟨l', r'⟩ := p
    rw [h1] at h
    dsimp only at h
    obtain ⟨hop, hl, hr⟩ := by
      simpa only [Option.some.injEq, Prod.mk.injEq] using h
    dsimp only
    rw [← hop, ← hl, ← hr]
  | none =>
  rw [h1] at h
  dsimp only at h
  dsimp only
  cases h2 : splitOnce sAND (pyStrip q) with
  | some p =>
    obtain ⟨l', r'⟩ := p
    rw [h2] at h
    dsimp only at h
    obtain ⟨hop, hl, hr⟩ := by
      simpa only [Option.some.injEq, Prod.mk.injEq] using h
    dsimp only
    rw [← hop, ← hl, ← hr]
  | none =>
  rw [h2] at h
  dsimp only at h
  dsimp only
  cases h3 : splitOnce sNOT (pyStrip q) with
  | some p =>
    obtain ⟨l', r'⟩ := p
    rw [h3] at h
    dsimp only at h
    obtain ⟨hop, hl, hr⟩ := by
      simpa only [Option.some.injEq, Prod.mk.injEq] using h
    dsimp only
    rw [← hop, ← hl, ← hr]
  | none =>
  rw [h3] at h
  simp at h

theorem C1_witness :
    parenWrapped (pyStrip ( "x AND y".toList)) = false ∧
      parse_boolean_query ( "x AND y".toList) =
        QExpr.node kAND [parse_boolean_query ( "x".toList),
          parse_boolean_query ( "y".toList)] :=
  ⟨by decide, C1_fixed_order_first_split ( "x AND y".toList) kAND ( "x".toList)
    ( "y".toList) (by decide) (by decide)⟩

/-- C3: for every catalog index and every simple term x (hypotheses: the
query "NOT x" is already trimmed, contains no space-delimited operator,
has no word-boundary OR or AND occurrence, and " x" parses to the leaf
x), evaluating the query "NOT x" yields exactly the set of all object
identifiers of the catalog minus the set matched by x.  In the source
this happens through the BINARY branch of NOT: the second pass splits at
the leading "NOT", the empty left operand evaluates to the full
universe, and the difference is taken. -/
theorem C3_leading_not_complement (db : DB) (x : List Char)
    (hq : pyStrip ('N' :: 'O' :: 'T' :: ' ' :: x) = 'N' :: 'O' :: 'T' :: ' ' :: x)
    (hor : splitOnce sOR ('N' :: 'O' :: 'T' :: ' ' :: x) = none)
    (hand : splitOnce sAND ('N' :: 'O' :: 'T' :: ' ' :: x) = none)
    (hnot : splitOnce sNOT ('N' :: 'O' :: 'T' :: ' ' :: x) = none)
    (hor2 : splitWordBoundary kOR none ('N' :: 'O' :: 'T' :: ' ' :: x) = none)
    (hand2 : splitWordBoundary kAND none ('N' :: 'O' :: 'T' :: ' ' :: x) = none)
    (hx : parse_boolean_query (' ' :: x) = QExpr.leaf x) :
    evaluate_boolean_expression db (parse_boolean_query ('N' :: 'O' :: 'T' :: ' ' :: x)) =
      some (get_all_object_ids db \ evaluate_simple_term db x) := by
  have hso : secondPass kOR ('N' :: 'O' :: 'T' :: ' ' :: x) = none := by
    unfold secondPass
    have e : (' ' :: (kOR ++ [' '])) = sOR := rfl
    rw [e, if_neg (by unfold hasSub; rw [hor]; simp)]
    by_cases hc : hasSub kOR ('N' :: 'O' :: 'T' :: ' ' :: x) = true
    · rw [if_pos hc]
      exact hor2
    · rw [if_neg hc]
  have hsa : secondPass kAND ('N' :: 'O' :: 'T' :: ' ' :: x) = none := by
    unfold secondPass
    have e : (' ' :: (kAND ++ [' '])) = sAND := rfl
    rw [e, if_neg (by unfold hasSub; rw [hand]; simp)]
    by_cases hc : hasSub kAND ('N' :: 'O' :: 'T' :: ' ' :: x) = true
    · rw [if_pos hc]
      exact hand2
    · rw [if_neg hc]
  have hsn : secondPass kNOT ('N' :: 'O' :: 'T' :: ' ' :: x) = some ([], ' ' :: x) := by
    unfold secondPass
    have e : (' ' :: (kNOT ++ [' '])) = sNOT := rfl
    rw [e, if_neg (by unfold hasSub; rw [hnot]; simp)]
    rw [if_pos (by rfl)]
    rfl
  have hparse : parse_boolean_query ('N' :: 'O' :: 'T' :: ' ' :: x) =
      QExpr.node kNOT [QExpr.leaf [], QExpr.leaf x] := by
    rw [parse_eq]
    unfold parseStep parseCore
    rw [hq]
    rw [if_neg (by simp [parenWrapped])]
    rw [hor]
    dsimp only
    rw [hand]
    dsimp only
    rw [hnot]
    dsimp only
    rw [hso]
    dsimp only
    rw [hsa]
    dsimp only
    rw [hsn]
    dsimp only
    rw [parse_nil, hx]
  rw [hparse, eval_node_not2 db (eval_leaf db []) (eval_leaf db x),
    @evaluate_simple_term_of_strip_nil db [] rfl]

theorem C3_witness :
    evaluate_boolean_expression db1 (parse_boolean_query ( "NOT apple".toList)) =
      some (get_all_object_ids db1 \ evaluate_simple_term db1 ( "apple".toList)) :=
  C3_leading_not_complement db1 ( "apple".toList) (by decide) (by decide) (by decide)
    (by decide) (by decide) (by decide) rfl

/-- C7: for every catalog index and simple terms x and y (hypotheses:
the query x ++ " NOT " ++ y is trimmed, not parenthesis wrapped,
contains no " OR " and no " AND ", its first " NOT " occurrence
separates exactly x from y, and both sides parse as leaves), evaluating
the binary form "x NOT y" yields exactly the set difference of the
identifiers matched by x minus those matched by y; and the construction
is not commutative, witnessed concretely on the two-object catalog
`db1`. -/
theorem C7_binary_not_difference :
    (∀ (db : DB) (x y : List Char),
      pyStrip (x ++ sNOT ++ y) = x ++ sNOT ++ y →
      parenWrapped (x ++ sNOT ++ y) = false →
      splitOnce sOR (x ++ sNOT ++ y) = none →
      splitOnce sAND (x ++ sNOT ++ y) = none →
      splitOnce sNOT (x ++ sNOT ++ y) = some (x, y) →
      parse_boolean_query x = QExpr.leaf x →
      parse_boolean_query y = QExpr.leaf y →
      evaluate_boolean_expression db (parse_boolean_query (x ++ sNOT ++ y)) =
        some (evaluate_simple_term db x \ evaluate_simple_term db y)) ∧
    evaluate_boolean_expression db1 (parse_boolean_query ( "apple NOT banana".toList)) ≠
      evaluate_boolean_expression db1 (parse_boolean_query ( "banana NOT apple".toList)) := by
  constructor
  · intro db x y hq hpw hor hand hnot hx hy
    have hparse : parse_boolean_query (x ++ sNOT ++ y) =
        QExpr.node kNOT [QExpr.leaf x, QExpr.leaf y] := by
      rw [parse_eq]
      unfold parseStep parseCore
      rw [hq]
      rw [if_neg (by rw [hpw]; simp)]
      rw [hor]
      dsimp only
      rw [hand]
      dsimp only
      rw [hnot]
      dsimp only
      rw [hx, hy]
    rw [hparse, eval_node_not2 db (eval_leaf db x) (eval_leaf db y)]
  · decide

theorem C7_witness :
    evaluate_boolean_expression db1
        (parse_boolean_query (( "apple".toList) ++ sNOT ++ ( "banana".toList))) =
      some (evaluate_simple_term db1 ( "apple".toList) \
        evaluate_simple_term db1 ( "banana".toList)) :=
  C7_binary_not_difference.1 db1 ( "apple".toList) ( "banana".toList) (by decide)
    (by decide) (by decide) (by decide) (by decide) rfl rfl

lemma pairwise_replace {l : List FileObject} (tid : List Char) (g : FileObject → FileObject)
    (newloc : List Char) (hg : ∀ o, (g o).location = newloc)
    (hn : (l.map (fun o => o.id)).Nodup)
    (hp : l.Pairwise (fun a b => a.location ≠ b.location))
    (hloc : ∀ b ∈ l, b.id ≠ tid → b.location ≠ newloc) :
    (l.map (fun o => if o.id == tid then g o else o)).Pairwise
      (fun a b => a.location ≠ b.location) := by
  induction l with
  | nil => simp
  | cons x xs ih =>
    simp only [List.map_cons, List.nodup_cons] at hn
    obtain ⟨hx_nid, hn'⟩ := hn
    rw [List.pairwise_cons] at hp
    obtain ⟨hx_loc, hp'⟩ := hp
    rw [List.map_cons, List.pairwise_cons]
    constructor
    · intro y hy
      obtain ⟨b, hb, hfb⟩ := List.mem_map.mp hy
      by_cases hx : (x.id == tid) = true
      · have hxid : x.id = tid := by simpa using hx
        have hbne : b.id ≠ tid := by
          intro hc
          have hmem : b.id ∈ xs.map (fun o => o.id) := List.mem_map_of_mem _ hb
          rw [hc, ← hxid] at hmem
          exact hx_nid hmem
        have hyb : y = b := by
          rw [← hfb]
          simp [beq_eq_false_iff_ne.mpr hbne]
        have hhead : (if (x.id == tid) = true then g x else x) = g x := by simp [hx]
        rw [hhead, hg, hyb]
        exact Ne.symm (hloc b (List.mem_cons_of_mem x hb) hbne)
      · have hxne : x.id ≠ tid := by simpa using hx
        have hhead : (if (x.id == tid) = true then g x else x) = x := by simp [hx]
        rw [hhead]
        by_cases hbid : (b.id == tid) = true
        · have hyb : y = g b := by rw [← hfb]; simp [hbid]
          rw [hyb, hg]
          exact hloc x (List.mem_cons_self x xs) hxne
        · have hyb : y = b := by rw [← hfb]; simp [hbid]
          rw [hyb]
          exact hx_loc b hb
    · exact ih hn' hp' (fun b hb hbne => hloc b (List.mem_cons_of_mem x hb) hbne)

/-- C9: if the catalog is a well-formed dict state (distinct ids) in
which no two objects share a location, then the invariant is preserved
by `add_object` and by `update_object`; moreover `add_object` returns
`none` and leaves the catalog unchanged when the new object's location
already exists, and `update_object` returns `false` and leaves the
catalog unchanged when the changed location already exists. -/
theorem C9_location_uniqueness (db : DB)
    (hids : (db.objects.map (fun o => o.id)).Nodup)
    (hinv : locUnique db.objects) :
    (∀ obj, locUnique ((add_object db obj).1).objects) ∧
    (∀ obj, location_exists db obj.location = true → add_object db obj = (db, none)) ∧
    (∀ i n d t l, locUnique ((update_object db i n d t l).1).objects) ∧
    (∀ i n d t l cur, lookup_object db i = some cur → (l != cur.location) = true →
      location_exists db l = true → update_object db i n d t l = (db, false)) := by
  unfold locUnique at hinv
  refine ⟨?_, ?_, ?_, ?_⟩
  · intro obj
    unfold add_object
    by_cases he : location_exists db obj.location = true
    · rw [if_pos he]
      exact hinv
    · rw [if_neg he]
      have hnotex : ∀ b ∈ db.objects, b.location ≠ obj.location := by
        intro b hb hc
        apply he
        unfold location_exists
        exact List.any_eq_true.mpr ⟨b, hb, by simp [hc]⟩
      unfold locUnique dict_set_object
      by_cases ha : (db.objects.any (fun o => o.id == obj.id)) = true
      · rw [if_pos ha]
        exact pairwise_replace obj.id (fun _ => obj) obj.location (fun _ => rfl) hids hinv
          (fun b hb _ => hnotex b hb)
      · rw [if_neg ha]
        rw [List.pairwise_append]
        refine ⟨hinv, List.pairwise_singleton _ _, ?_⟩
        intro a hamem b hbmem
        simp only [List.mem_singleton] at hbmem
        rw [hbmem]
        exact hnotex a hamem
  · intro obj he
    unfold add_object
    rw [if_pos he]
  · intro i n d t l
    unfold update_object
    cases hf : lookup_object db i with
    | none => exact hinv
    | some cur =>
      dsimp only
      by_cases hc : ((l != cur.location) && location_exists db l) = true
      · rw [if_pos hc]
        exact hinv
      · rw [if_neg hc]
        have hcur_mem : cur ∈ db.objects := List.mem_of_find?_eq_some hf
        have hcur_id : cur.id = i := by
          have hpred := List.find?_some hf
          simpa using hpred
        unfold locUnique
        apply pairwise_replace i _ l (fun o => rfl) hids hinv
        intro b hb hbne
        by_cases hA : (l != cur.location) = true
        · have hl : location_exists db l = false := by
            cases hB : location_exists db l
            · rfl
            · exact absurd (by rw [Bool.and_eq_true]; exact ⟨hA, hB⟩) hc
          intro hcl
          have hex : location_exists db l = true := by
            unfold location_exists
            exact List.any_eq_true.mpr ⟨b, hb, by simp [hcl]⟩
          rw [hl] at hex
          exact absurd hex (by simp)
        · have hl : l = cur.location := by simpa using hA
          rw [hl]
          have hbnecur : b ≠ cur := by
            intro hbc
            rw [hbc] at hbne
            exact hbne hcur_id
          exact List.Pairwise.forall (fun a b h => Ne.symm h) hinv hb hcur_mem hbnecur
  · intro i n d t l cur hf hne hex
    unfold update_object
    rw [hf]
    dsimp only
    rw [if_pos (by rw [Bool.and_eq_true]; exact ⟨hne, hex⟩)]

/-- a third sample object with a fresh location, used to exercise
`add_object`. -/
def objCherry : FileObject :=
  { id := [ '3'], name := 'c' :: 'h' :: 'e' :: 'r' :: 'r' :: 'y' :: [],
    description := [], file_type := 'i' :: 'm' :: 'g' :: [],
    location := '/' :: 'c' :: [] }

theorem C9_witness :
    locUnique ((add_object db1 objCherry).1).objects :=
  (C9_location_uniqueness db1 (by decide) (by unfold locUnique; decide)).1 objCherry
